import Mathlib

/-!
Verification of the backtesting core of `market-intelligence-ml`.

The development embeds, in exact rational/real arithmetic:
* `src/backtest/metrics.py` — the metrics library (numpy population
  statistics, pandas sample statistics; pandas/numpy NaN is modelled
  explicitly where the source can produce it);
* `src/backtest/engine.py` — the single-asset `BacktestEngine`
  (pandas series operations `diff`, `shift`, `cumprod`, `fillna` are
  modelled index-wise, with `none` standing for NaN);
* `backend/app/services/backtest_service.py` — the multi-asset
  portfolio simulator (`BacktestService.run_backtest` trading loop).

Theorems about the embedded definitions follow after the definitions.
-/

namespace MarketIntel

/-! ### Basic statistics helpers (numpy / pandas semantics) -/

/-- Arithmetic mean of a list of rationals (`numpy.mean`; division by
zero yields `0` for the empty list, a case always guarded in source). -/
def mean (l : List ℚ) : ℚ := l.sum / l.length

/-- Population variance (`numpy.std(...)**2`, `ddof = 0`). -/
def popVar (l : List ℚ) : ℚ :=
  (l.map (fun x => (x - mean l) ^ 2)).sum / l.length

/-- Sample variance (`pandas .std()**2` / `.var()`, `ddof = 1`),
for lists of length at least two. -/
def sampleVar (l : List ℚ) : ℚ :=
  (l.map (fun x => (x - mean l) ^ 2)).sum / ((l.length : ℚ) - 1)

/-- Sample variance with pandas NaN semantics: `pandas .std()` with
`ddof = 1` is NaN on a list of fewer than two elements. -/
def sampleVarOpt (l : List ℚ) : Option ℚ :=
  if l.length ≤ 1 then none else some (sampleVar l)

/-- Sample covariance (`pandas Series.cov`, `ddof = 1`),
for aligned lists of length at least two. -/
def sampleCov (x y : List ℚ) : ℚ :=
  ((x.zip y).map (fun p => (p.1 - mean x) * (p.2 - mean y))).sum /
    ((x.length : ℚ) - 1)

/-- `numpy.sign` on a rational. -/
def signQ (x : ℚ) : ℚ := if 0 < x then 1 else if x < 0 then -1 else 0

/-- `pandas .clip(-1, 1)` on a real value. -/
def clipR (x : ℝ) : ℝ := max (-1) (min x 1)

/-- Running product with accumulator (`pandas .cumprod()`). -/
def cumprodAux (acc : ℚ) : List ℚ → List ℚ
  | [] => []
  | x :: xs => (acc * x) :: cumprodAux (acc * x) xs

/-- `pandas .cumprod()`: element `t` is the product of the first
`t + 1` elements. -/
def cumprod (l : List ℚ) : List ℚ := cumprodAux 1 l

/-- Running maximum continuation: `a` is the maximum seen so far. -/
def runMaxGo (a : ℚ) : List ℚ → List ℚ
  | [] => []
  | y :: ys => max a y :: runMaxGo (max a y) ys

/-- `pandas .expanding().max()`: element `t` is the maximum of the
first `t + 1` elements. -/
def runMax : List ℚ → List ℚ
  | [] => []
  | x :: xs => x :: runMaxGo x xs

/-- `pandas .min()` of a series: NaN (here `none`) on the empty
series, else the least element. -/
def seriesMin : List ℚ → Option ℚ
  | [] => none
  | x :: xs => some (xs.foldl min x)

/-! ### Pandas series with explicit NaN

A pandas float series is modelled as a list of `Option ℚ`, `none`
standing for NaN.  Arithmetic propagates NaN; `fillna` replaces it. -/

/-- A pandas float series; `none` is NaN. -/
abbrev Ser := List (Option ℚ)

/-- Embed a NaN-free series. -/
def toSer (l : List ℚ) : Ser := l.map some

/-- `series.diff()`: first element NaN, element `t` is
`s[t] - s[t-1]`. -/
def sDiff (s : Ser) : Ser :=
  (List.range s.length).map fun t =>
    if t = 0 then none else Option.map₂ (· - ·) (s.getD t none) (s.getD (t - 1) none)

/-- `series.shift(1)`: first element NaN, element `t` is `s[t-1]`. -/
def sShift1 (s : Ser) : Ser :=
  (List.range s.length).map fun t => if t = 0 then none else s.getD (t - 1) none

/-- `series.abs()` (NaN-propagating). -/
def sAbs (s : Ser) : Ser := s.map (Option.map (fun x => |x|))

/-- Elementwise product of two aligned series (NaN-propagating). -/
def sMulSer (a b : Ser) : Ser := List.zipWith (Option.map₂ (· * ·)) a b

/-- Elementwise difference of two aligned series (NaN-propagating). -/
def sSubSer (a b : Ser) : Ser := List.zipWith (Option.map₂ (· - ·)) a b

/-- Multiplication of a series by a scalar (NaN-propagating). -/
def sMulC (s : Ser) (c : ℚ) : Ser := s.map (Option.map (· * c))

/-- `series.fillna(v)`. -/
def sFillna (s : Ser) (v : ℚ) : List ℚ := s.map (fun x => x.getD v)

/-! ### Single-asset backtest engine (`src/backtest/engine.py`) -/

/-- The `costs` series of `BacktestEngine._calculate_strategy_returns`:
`positions.diff().abs() * (transaction_cost + slippage)`. -/
def transactionCostSeries (tc slip : ℚ) (positions : Ser) : Ser :=
  sMulC (sAbs (sDiff positions)) (tc + slip)

/-- `BacktestEngine._calculate_strategy_returns`: gross returns are
`positions.shift(1) * actual_returns`, costs are charged on turnover,
and the initial NaN is filled with `0`. -/
def _calculate_strategy_returns (tc slip : ℚ) (positions actual : Ser) : List ℚ :=
  let gross_returns := sMulSer (sShift1 positions) actual
  let costs := transactionCostSeries tc slip positions
  sFillna (sSubSer gross_returns costs) 0

/-! ### Metrics library (`src/backtest/metrics.py`)

Metric values are modelled exactly: a finite float becomes a real
number, `np.inf` becomes `posInf`, and a float NaN becomes `nan`.
The comparisons `x == 0` / `x > 0` of the source are `False` on NaN,
which the embedding reflects branch by branch. -/

/-- Value of a metric: a finite float, `np.inf`, or float NaN. -/
inductive MVal where
  | num (x : ℝ)
  | posInf
  | nan
  deriving Inhabited

noncomputable section

/-- `calculate_sharpe_ratio`: excess returns are `r - rf/252`; the
guard tests (and the result divides by) the numpy population standard
deviation of `returns` itself.  On the empty series numpy mean/std are
NaN, the `== 0` guard is `False`, and the result is NaN. -/
def calculate_sharpe_ratio (returns : List ℚ) (risk_free_rate : ℚ := 2/100) : MVal :=
  let excess_returns := returns.map (fun x => x - risk_free_rate / 252)
  if returns.length = 0 then .nan
  else if popVar returns = 0 then .num 0
  else .num (Real.sqrt 252 * (mean excess_returns) / Real.sqrt (popVar returns))

/-- `calculate_sortino_ratio`: denominator is the numpy population
standard deviation of the strictly negative returns only. -/
def calculate_sortino_ratio (returns : List ℚ) (risk_free_rate : ℚ := 2/100) : MVal :=
  let excess_returns := returns.map (fun x => x - risk_free_rate / 252)
  let downside_returns := returns.filter (fun x => x < 0)
  if returns.length = 0 then .nan
  else if downside_returns.length = 0 ∨ popVar downside_returns = 0 then .num 0
  else .num (Real.sqrt 252 * (mean excess_returns) / Real.sqrt (popVar downside_returns))

end

/-- The drawdown series of `calculate_max_drawdown`: cumulative wealth
`(1 + returns).cumprod()`, running peak `.expanding().max()`, and
`(cumulative - running_max) / running_max`. -/
def drawdownSeries (returns : List ℚ) : List ℚ :=
  let cumulative := cumprod (returns.map (fun x => 1 + x))
  let running_max := runMax cumulative
  List.zipWith (fun w m => (w - m) / m) cumulative running_max

/-- `calculate_max_drawdown`: the minimum of the drawdown series
(`none` = NaN for the empty series). -/
def calculate_max_drawdown (returns : List ℚ) : Option ℚ :=
  seriesMin (drawdownSeries returns)

noncomputable section

/-- The annualized return `(1 + returns).prod() ** (252 / len(returns)) - 1`
of `calculate_calmar_ratio` / `calculate_all_metrics`.  numpy float
power of a negative base is NaN unless the exponent is integral; the
zero-length case (a Python `ZeroDivisionError`) is also mapped to
`nan`, and is never reached by the callers verified here. -/
def annualReturnM (returns : List ℚ) : MVal :=
  let n := returns.length
  let p : ℚ := (returns.map (fun x => 1 + x)).prod
  if n = 0 then .nan
  else if 0 ≤ p then .num ((p : ℝ) ^ ((252 : ℝ) / n) - 1)
  else if n ∣ 252 then .num ((p : ℝ) ^ (252 / n) - 1)
  else .nan

/-- `calculate_calmar_ratio`: annualized return over `|max_drawdown|`,
`0.0` when the maximum drawdown is zero. -/
def calculate_calmar_ratio (returns : List ℚ) : MVal :=
  let annual_return := annualReturnM returns
  let max_dd : Option ℚ := (calculate_max_drawdown returns).map (fun d => |d|)
  match max_dd with
  | none => .nan
  | some dd =>
    if dd = 0 then .num 0
    else match annual_return with
      | .num a => .num (a / (dd : ℝ))
      | .posInf => .posInf
      | .nan => .nan

/-- `calculate_information_ratio`: active returns are `r - b`; the
tracking error uses the pandas sample standard deviation (`ddof = 1`),
which is NaN on fewer than two points — then the `== 0` guard is
`False` and the result is NaN. -/
def calculate_information_ratio (returns benchmark_returns : List ℚ) : MVal :=
  let active_returns := List.zipWith (· - ·) returns benchmark_returns
  match sampleVarOpt active_returns with
  | none => .nan
  | some v =>
    if Real.sqrt v * Real.sqrt 252 = 0 then .num 0
    else .num ((mean active_returns * 252) / (Real.sqrt v * Real.sqrt 252))

end

/-- `calculate_win_rate`: fraction of the non-zero returns that are
strictly positive, `0.0` when no non-zero return exists. -/
def calculate_win_rate (returns : List ℚ) : ℚ :=
  let nz := returns.filter (fun x => x ≠ 0)
  if nz.length = 0 then 0
  else ((nz.filter (fun x => 0 < x)).length : ℚ) / nz.length

/-- `calculate_profit_factor`: gross profit over gross loss, `np.inf`
when there is no loss but some profit, `0.0` when both are zero. -/
def calculate_profit_factor (returns : List ℚ) : MVal :=
  let gross_profit := (returns.filter (fun x => 0 < x)).sum
  let gross_loss := |(returns.filter (fun x => x < 0)).sum|
  if gross_loss = 0 then (if 0 < gross_profit then .posInf else .num 0)
  else .num ((gross_profit / gross_loss : ℚ) : ℝ)

/-- `calculate_alpha_beta`: beta is the sample covariance of the daily
excess series over the sample variance of the benchmark excess
(`0.0` on zero variance); alpha is annualized.  With fewer than two
aligned points the pandas `cov`/`var` are NaN, the `== 0` guard is
`False`, and both outputs are NaN. -/
def calculate_alpha_beta (returns benchmark_returns : List ℚ)
    (risk_free_rate : ℚ := 2/100) : MVal × MVal :=
  let rf_daily := risk_free_rate / 252
  let excess_strategy := returns.map (fun x => x - rf_daily)
  let excess_benchmark := benchmark_returns.map (fun x => x - rf_daily)
  if returns.length ≤ 1 ∨ benchmark_returns.length ≤ 1 then (.nan, .nan)
  else
    let covariance := sampleCov excess_strategy excess_benchmark
    let benchmark_variance := sampleVar excess_benchmark
    let beta : ℚ := if benchmark_variance = 0 then 0 else covariance / benchmark_variance
    let alpha : ℚ := (mean excess_strategy - beta * mean excess_benchmark) * 252
    (.num (alpha : ℝ), .num (beta : ℝ))

noncomputable section

/-- The annualized volatility entry of `calculate_all_metrics`:
`returns.std() * np.sqrt(252)` with the pandas sample standard
deviation (NaN on fewer than two points). -/
def volatilityM (returns : List ℚ) : MVal :=
  match sampleVarOpt returns with
  | none => .nan
  | some v => .num (Real.sqrt v * Real.sqrt 252)

/-- `calculate_all_metrics`: the metrics dictionary, as an ordered
association list.  The three benchmark-relative entries are present
exactly when a benchmark series is supplied. -/
def calculate_all_metrics (returns : List ℚ) (benchmark_returns : Option (List ℚ)) :
    List (String × MVal) :=
  let total_return : MVal := .num ((((returns.map (fun x => 1 + x)).prod - 1 : ℚ)) : ℝ)
  let base : List (String × MVal) :=
    [("total_return", total_return),
     ("annual_return", annualReturnM returns),
     ("volatility", volatilityM returns),
     ("sharpe_ratio", calculate_sharpe_ratio returns),
     ("sortino_ratio", calculate_sortino_ratio returns),
     ("calmar_ratio", calculate_calmar_ratio returns),
     ("max_drawdown", match calculate_max_drawdown returns with
        | none => .nan
        | some d => .num (d : ℝ)),
     ("win_rate", .num ((calculate_win_rate returns : ℚ) : ℝ)),
     ("profit_factor", calculate_profit_factor returns)]
  match benchmark_returns with
  | none => base
  | some b =>
    let ab := calculate_alpha_beta returns b
    base ++ [("information_ratio", calculate_information_ratio returns b),
             ("alpha", ab.1),
             ("beta", ab.2)]

/-! ### Position sizer (`BacktestEngine._predictions_to_positions`) -/

/-- `BacktestEngine._predictions_to_positions`: drop missing
predictions; if any remain, z-score normalize by the pandas sample
standard deviation and clip to `[-1, 1]` when `pred_std > 0` (`False`
when the std is zero or NaN, i.e. a single valid prediction), else
fall back to `np.sign`; with no valid prediction every position is
`0`.  NaN inputs propagate through both arithmetic branches. -/
def predictionsToPositions (predictions : List (Option ℚ)) : List (Option ℝ) :=
  let pred_clean := predictions.filterMap id
  if 0 < pred_clean.length then
    let pred_mean := mean pred_clean
    let stdPos : Bool := match sampleVarOpt pred_clean with
      | none => false
      | some v => decide (0 < v)
    if stdPos then
      predictions.map (Option.map (fun x : ℚ =>
        clipR (((x : ℝ) - (pred_mean : ℝ)) / Real.sqrt (sampleVar pred_clean))))
    else
      predictions.map (Option.map (fun x => ((signQ x : ℚ) : ℝ)))
  else
    predictions.map (fun _ => some 0)

/-! ### `BacktestEngine.run_backtest` (explicit-positions mode)

`run_backtest(predictions, actual_returns, positions)` with the
positions supplied explicitly (the `positions is None` branch is the
separately modelled `predictionsToPositions`). -/

/-- Result record of `BacktestEngine.run_backtest`. -/
structure BacktestResult where
  returns : List ℚ
  positions : List ℚ
  equity_curve : List ℚ
  metrics : List (String × MVal)

/-- `BacktestEngine.run_backtest` with explicit positions: strategy
returns, metrics against `actual_returns` as benchmark, and the equity
curve `(1 + strategy_returns).cumprod() * initial_capital`. -/
def run_backtest (tc slip capital : ℚ) (positions actual_returns : List ℚ) :
    BacktestResult :=
  let strategy_returns :=
    _calculate_strategy_returns tc slip (toSer positions) (toSer actual_returns)
  let metrics := calculate_all_metrics strategy_returns (some actual_returns)
  let equity_curve := (cumprod (strategy_returns.map (fun x => 1 + x))).map (· * capital)
  ⟨strategy_returns, positions, equity_curve, metrics⟩

end

/-! ### Specification-side definitions (for refinement claims) -/

noncomputable section

/-- Modelled from the spec: `sharpe_ratio(r, rf_annual)` as §4.1 words
it — `sqrt(252) * mean(excess) / std(excess)` with the degenerate
fallback `0.0` when the standard deviation of the excess returns is
zero. -/
def sharpeSpec (returns : List ℚ) (risk_free_rate : ℚ := 2/100) : ℝ :=
  let excess := returns.map (fun x => x - risk_free_rate / 252)
  if popVar excess = 0 then 0
  else Real.sqrt 252 * (mean excess) / Real.sqrt (popVar excess)

/-- Modelled from the spec: the §4.2 position sizer — z-score of each
non-missing prediction by the mean and (sample) standard deviation of
the cleaned subset, clipped to `[-1, 1]`, when that standard deviation
is nonzero; the sign of each prediction when it is zero (a single
valid prediction has zero deviation); all zeros when no valid
prediction exists. -/
def predictionsToPositionsSpec (predictions : List (Option ℚ)) : List (Option ℝ) :=
  let clean := predictions.filterMap id
  if clean = [] then predictions.map (fun _ => some 0)
  else
    let sd2 : ℚ := if clean.length ≤ 1 then 0 else sampleVar clean
    if sd2 = 0 then predictions.map (Option.map (fun x => ((signQ x : ℚ) : ℝ)))
    else
      predictions.map (Option.map (fun x : ℚ =>
        clipR (((x : ℝ) - (mean clean : ℝ)) / Real.sqrt sd2)))

end

/-! ### Multi-asset portfolio simulator
(`backend/app/services/backtest_service.py`, `BacktestService.run_backtest`)

The data-gathering half of each step (feature preparation and model
prediction, lines 85–118) is an external collaborator; a step's
collected predictions arrive here as an ordered association list, in
original symbol order, exactly as the Python `predictions` dict is
populated.  The trading half (lines 120–174) is embedded below. -/

/-- A trade log record. -/
structure Trade where
  date : String
  symbol : String
  action : String
  quantity : ℚ
  price : ℚ
  value : ℚ
  deriving DecidableEq

/-- The per-run mutable state of the simulator loop. -/
structure PortState where
  cash : ℚ
  positions : List (String × ℚ)
  trades : List Trade
  deriving DecidableEq

/-- The ranking relation of `sorted(..., key=lambda x: x[1], reverse=True)`:
`a` may precede `b` when `a`'s predicted return is at least `b`'s. -/
def predGE (a b : String × ℚ) : Prop := b.2 ≤ a.2

instance : DecidableRel predGE := fun a b => inferInstanceAs (Decidable (b.2 ≤ a.2))

instance : IsTotal (String × ℚ) predGE := ⟨fun a b => le_total b.2 a.2⟩

instance : IsTrans (String × ℚ) predGE := ⟨fun _ _ _ h1 h2 => le_trans h2 h1⟩

/-- `sorted(predictions.items(), key=lambda x: x[1], reverse=True)`:
Python's sort is stable, so this is the stable descending sort by
predicted return (ties keep original order), here as a stable
insertion sort. -/
def sortPredsDesc (l : List (String × ℚ)) : List (String × ℚ) :=
  l.insertionSort predGE

/-- `buy_symbols = [s for s, p in sorted_preds if p > 0.01][:2]`. -/
def buySymbols (predictions : List (String × ℚ)) : List String :=
  (((sortPredsDesc predictions).filter (fun p => 1/100 < p.2)).map Prod.fst).take 2

/-- Modelled from the spec: the §4.5 buy set — rank the symbols with
predicted return above 1% by predicted return descending (stable, ties
in original symbol order) and take the top two. -/
def buySymbolsSpec (predictions : List (String × ℚ)) : List String :=
  ((sortPredsDesc (predictions.filter (fun p => 1/100 < p.2))).map Prod.fst).take 2

/-- The sell loop (lines 129–144): walk the positions dict in order;
every held position (`> 0`) whose symbol is not in the buy list is
sold in full, crediting `proceeds - proceeds * transaction_cost` to
cash and logging one SELL trade; its position becomes `0`.  Returns
(positions, cash, trades). -/
def sellPhase (tc : ℚ) (price : String → ℚ) (date : String) (buys : List String) :
    List (String × ℚ) → ℚ → List Trade → List (String × ℚ) × ℚ × List Trade
  | [], cash, trades => ([], cash, trades)
  | (sym, q) :: rest, cash, trades =>
    if 0 < q ∧ sym ∉ buys then
      let sell_price := price sym
      let proceeds0 := q * sell_price
      let proceeds := proceeds0 - proceeds0 * tc
      let out := sellPhase tc price date buys rest (cash + proceeds)
        (trades ++ [⟨date, sym, "SELL", q, sell_price, proceeds⟩])
      ((sym, 0) :: out.1, out.2)
    else
      let out := sellPhase tc price date buys rest cash trades
      ((sym, q) :: out.1, out.2)

/-- `positions[symbol] = shares` on the positions dict: update the
existing key in place, else append a new key. -/
def setPos : List (String × ℚ) → String → ℚ → List (String × ℚ)
  | [], sym, v => [(sym, v)]
  | (s, q) :: rest, sym, v =>
    if s = sym then (s, v) :: rest else (s, q) :: setPos rest sym v

/-- The buy loop (lines 150–165): for each buy symbol in order, the
cost-inclusive amount is `allocation_per_symbol * (1 + transaction_cost)`;
the purchase happens only if cash covers it, setting the position to
`allocation_per_symbol / buy_price` shares, debiting cash and logging
one BUY trade.  Returns (positions, cash, trades). -/
def buyPhase (tc : ℚ) (price : String → ℚ) (date : String) (allocation_per_symbol : ℚ) :
    List String → List (String × ℚ) → ℚ → List Trade → List (String × ℚ) × ℚ × List Trade
  | [], pos, cash, trades => (pos, cash, trades)
  | sym :: rest, pos, cash, trades =>
    let buy_price := price sym
    let cost := allocation_per_symbol * (1 + tc)
    if cost ≤ cash then
      let shares := allocation_per_symbol / buy_price
      buyPhase tc price date allocation_per_symbol rest (setPos pos sym shares) (cash - cost)
        (trades ++ [⟨date, sym, "BUY", shares, buy_price, allocation_per_symbol⟩])
    else
      buyPhase tc price date allocation_per_symbol rest pos cash trades

/-- One trading step (lines 120–165): nothing happens when no
prediction was collected (`if predictions:`); otherwise sell every
held position outside the buy set, then allocate 95% of the remaining
cash equally across the buy set. -/
def stepTrade (tc : ℚ) (price : String → ℚ) (date : String)
    (predictions : List (String × ℚ)) (st : PortState) : PortState :=
  if predictions = [] then st
  else
    let buy_symbols := buySymbols predictions
    let s := sellPhase tc price date buy_symbols st.positions st.cash st.trades
    if buy_symbols = [] then ⟨s.2.1, s.1, s.2.2⟩
    else
      let allocation_per_symbol := s.2.1 * (95/100) / buy_symbols.length
      let b := buyPhase tc price date allocation_per_symbol buy_symbols s.1 s.2.1 s.2.2
      ⟨b.2.1, b.1, b.2.2⟩

/-- Portfolio value at a step (lines 167–174): cash plus
mark-to-market of the strictly positive positions. -/
def portfolioValue (price : String → ℚ) (st : PortState) : ℚ :=
  st.cash + (st.positions.map (fun p => if 0 < p.2 then p.2 * price p.1 else 0)).sum

/-- Input of one simulator step: its date, the predictions collected
for it (original symbol order), and that day's close prices. -/
structure StepInput where
  date : String
  predictions : List (String × ℚ)
  price : String → ℚ

/-- The simulator loop: one `stepTrade` per step, appending the
resulting portfolio value to the equity curve each time. -/
def runSimGo (tc : ℚ) : List StepInput → PortState → List ℚ → PortState × List ℚ
  | [], st, equity => (st, equity)
  | step :: rest, st, equity =>
    let st' := stepTrade tc step.price step.date step.predictions st
    runSimGo tc rest st' (equity ++ [portfolioValue step.price st'])

/-- `BacktestService.run_backtest` trading core: start with all
positions at `0` (the dict comprehension keeps one entry per distinct
symbol) and the equity curve seeded with the initial capital, then run
the steps. -/
def runSim (tc initial_capital : ℚ) (symbols : List String) (steps : List StepInput) :
    PortState × List ℚ :=
  runSimGo tc steps ⟨initial_capital, symbols.dedup.map (fun s => (s, 0)), []⟩
    [initial_capital]

/-! ### Lemmas: series operations, index-wise -/

lemma getD_range_map {f : ℕ → Option ℚ} {n t : ℕ} (ht : t < n) :
    (((List.range n).map f).getD t none) = f t := by
  rw [List.getD_eq_getElem?_getD, List.getElem?_map, List.getElem?_range ht]
  rfl

lemma toSer_length (l : List ℚ) : (toSer l).length = l.length := List.length_map _ _

lemma toSer_getD {l : List ℚ} {t : ℕ} (ht : t < l.length) :
    (toSer l).getD t none = some (l.getD t 0) := by
  rw [toSer, List.getD_eq_getElem?_getD, List.getElem?_map,
    List.getElem?_eq_getElem ht, List.getD_eq_getElem _ _ ht]
  rfl

lemma sZip_getD {f : ℚ → ℚ → ℚ} {a b : Ser} {t : ℕ}
    (hta : t < a.length) (htb : t < b.length) :
    (List.zipWith (Option.map₂ f) a b).getD t none =
      Option.map₂ f (a.getD t none) (b.getD t none) := by
  rw [List.getD_eq_getElem?_getD, List.getElem?_zipWith,
    List.getElem?_eq_getElem hta, List.getElem?_eq_getElem htb,
    List.getD_eq_getElem _ _ hta, List.getD_eq_getElem _ _ htb]
  rfl

lemma sMap_getD {f : ℚ → ℚ} {s : Ser} {t : ℕ} :
    (s.map (Option.map f)).getD t none = Option.map f (s.getD t none) := by
  have h := List.getD_map (l := s) (d := none) (n := t) (f := Option.map f)
  simpa using h

lemma sFillna_getD {s : Ser} {t : ℕ} :
    (sFillna s 0).getD t 0 = (s.getD t none).getD 0 := by
  have h := List.getD_map (l := s) (d := none) (n := t) (f := fun x => x.getD 0)
  simpa [sFillna] using h

lemma sShift1_getD_zero {s : Ser} (h : 0 < s.length) : (sShift1 s).getD 0 none = none := by
  rw [sShift1, getD_range_map h]
  rfl

lemma sShift1_getD {s : Ser} {t : ℕ} (ht : t < s.length) (ht0 : t ≠ 0) :
    (sShift1 s).getD t none = s.getD (t - 1) none := by
  rw [sShift1, getD_range_map ht, if_neg ht0]

lemma sDiff_getD_zero {s : Ser} (h : 0 < s.length) : (sDiff s).getD 0 none = none := by
  rw [sDiff, getD_range_map h]
  rfl

lemma sDiff_getD {s : Ser} {t : ℕ} (ht : t < s.length) (ht0 : t ≠ 0) :
    (sDiff s).getD t none = Option.map₂ (· - ·) (s.getD t none) (s.getD (t - 1) none) := by
  rw [sDiff, getD_range_map ht, if_neg ht0]

lemma sLengths (tc slip : ℚ) (positions actual : Ser) :
    (_calculate_strategy_returns tc slip positions actual).length =
      min positions.length actual.length := by
  simp only [_calculate_strategy_returns, sFillna, sSubSer, sMulSer, transactionCostSeries,
    sMulC, sAbs, sDiff, sShift1, List.length_map, List.length_zipWith, List.length_range]
  omega

lemma transactionCostSeries_getD (tc slip : ℚ) {positions : List ℚ} {t : ℕ}
    (ht : t < positions.length) (ht0 : t ≠ 0) :
    (transactionCostSeries tc slip (toSer positions)).getD t none =
      some (|positions.getD t 0 - positions.getD (t - 1) 0| * (tc + slip)) := by
  have ht' : t - 1 < positions.length := lt_of_le_of_lt (Nat.sub_le t 1) ht
  have hts : t < (toSer positions).length := by rwa [toSer_length]
  rw [transactionCostSeries, sMulC, sMap_getD, sAbs, sMap_getD,
    sDiff_getD hts ht0, toSer_getD ht, toSer_getD ht']
  rfl

lemma transactionCostSeries_getD_zero (tc slip : ℚ) {positions : List ℚ}
    (h : 0 < positions.length) :
    (transactionCostSeries tc slip (toSer positions)).getD 0 none = none := by
  have hts : 0 < (toSer positions).length := by rwa [toSer_length]
  rw [transactionCostSeries, sMulC, sMap_getD, sAbs, sMap_getD, sDiff_getD_zero hts]
  rfl

lemma strategyReturns_getD_zero (tc slip : ℚ) {pos act : List ℚ}
    (hp : 0 < pos.length) (ha : 0 < act.length) :
    (_calculate_strategy_returns tc slip (toSer pos) (toSer act)).getD 0 0 = 0 := by
  have hps : 0 < (toSer pos).length := by rwa [toSer_length]
  have has : 0 < (toSer act).length := by rwa [toSer_length]
  have hgl : 0 < (sShift1 (toSer pos)).length := by simpa [sShift1] using hps
  have hgross : 0 < (sMulSer (sShift1 (toSer pos)) (toSer act)).length := by
    simp only [sMulSer, List.length_zipWith, sShift1, List.length_map, List.length_range,
      toSer_length, lt_min_iff]
    omega
  have hcosts : 0 < (transactionCostSeries tc slip (toSer pos)).length := by
    simp only [transactionCostSeries, sMulC, sAbs, sDiff, List.length_map, List.length_range,
      toSer_length]
    omega
  rw [_calculate_strategy_returns, sFillna_getD, sSubSer, sZip_getD hgross hcosts,
    sMulSer, sZip_getD hgl has, sShift1_getD_zero hps,
    transactionCostSeries_getD_zero tc slip hp]
  rfl

lemma strategyReturns_getD (tc slip : ℚ) {pos act : List ℚ} {t : ℕ}
    (hlen : pos.length = act.length) (ht : t < act.length) (ht0 : t ≠ 0) :
    (_calculate_strategy_returns tc slip (toSer pos) (toSer act)).getD t 0 =
      pos.getD (t - 1) 0 * act.getD t 0 -
        |pos.getD t 0 - pos.getD (t - 1) 0| * (tc + slip) := by
  have htp : t < pos.length := by omega
  have htp' : t - 1 < pos.length := by omega
  have hps : t < (toSer pos).length := by rwa [toSer_length]
  have has : t < (toSer act).length := by rwa [toSer_length]
  have hgross : t < (sMulSer (sShift1 (toSer pos)) (toSer act)).length := by
    simp only [sMulSer, List.length_zipWith, sShift1, List.length_map, List.length_range,
      toSer_length]
    omega
  have hcosts : t < (transactionCostSeries tc slip (toSer pos)).length := by
    simp only [transactionCostSeries, sMulC, sAbs, sDiff, List.length_map, List.length_range,
      toSer_length]
    omega
  rw [_calculate_strategy_returns, sFillna_getD, sSubSer, sZip_getD hgross hcosts,
    sMulSer, sZip_getD (by simpa [sShift1] using hps) has,
    sShift1_getD hps ht0, toSer_getD htp', toSer_getD ht,
    transactionCostSeries_getD tc slip htp ht0]
  rfl

/-! ### Lemmas: cumulative products and the equity curve -/

lemma cumprodAux_length (a : ℚ) (l : List ℚ) : (cumprodAux a l).length = l.length := by
  induction l generalizing a with
  | nil => rfl
  | cons x xs ih => simp [cumprodAux, ih]

lemma cumprodAux_getD_zero (a : ℚ) {l : List ℚ} (h : 0 < l.length) :
    (cumprodAux a l).getD 0 0 = a * l.getD 0 1 := by
  cases l with
  | nil => simp at h
  | cons x xs => simp [cumprodAux]

lemma cumprodAux_getD_succ (a : ℚ) {l : List ℚ} {t : ℕ} (h : t + 1 < l.length) :
    (cumprodAux a l).getD (t + 1) 0 = (cumprodAux a l).getD t 0 * l.getD (t + 1) 1 := by
  induction l generalizing a t with
  | nil => simp at h
  | cons x xs ih =>
    cases t with
    | zero =>
      have hx : 0 < xs.length := by simpa using h
      simp only [cumprodAux, List.getD_cons_succ, List.getD_cons_zero]
      rw [cumprodAux_getD_zero (a * x) hx]
    | succ s =>
      have hx : s + 1 < xs.length := by simpa using h
      simp only [cumprodAux, List.getD_cons_succ]
      exact ih (a * x) hx

lemma cumprodAux_take (a : ℚ) (l : List ℚ) (t : ℕ) :
    cumprodAux a (l.take t) = (cumprodAux a l).take t := by
  induction l generalizing a t with
  | nil => simp [cumprodAux]
  | cons x xs ih =>
    cases t with
    | zero => simp [cumprodAux]
    | succ s =>
      simp only [List.take_succ_cons, cumprodAux, ih]

lemma take_congr_of_getElem? {α : Type} {l₁ l₂ : List α} {t : ℕ}
    (h : ∀ s, s < t → l₁[s]? = l₂[s]?) : l₁.take t = l₂.take t := by
  apply List.ext_getElem?
  intro n
  rw [List.getElem?_take, List.getElem?_take]
  split
  · exact h n (by assumption)
  · rfl

lemma getD_take {α : Type} {l : List α} {d : α} {s t : ℕ} (h : s < t) :
    (l.take t).getD s d = l.getD s d := by
  rw [List.getD_eq_getElem?_getD, List.getD_eq_getElem?_getD, List.getElem?_take, if_pos h]

lemma getD_mul_const (l : List ℚ) (c : ℚ) (t : ℕ) :
    (l.map (· * c)).getD t 0 = l.getD t 0 * c := by
  have h := List.getD_map (l := l) (d := 0) (n := t) (f := (· * c))
  simpa using h

lemma getD_one_add (l : List ℚ) (t : ℕ) :
    (l.map (fun x => 1 + x)).getD t 1 = 1 + l.getD t 0 := by
  have h := List.getD_map (l := l) (d := 0) (n := t) (f := fun x => 1 + x)
  simpa using h

/-! ### Claims about the single-asset engine -/

/-- C2: for equal-length positions and actual-return series,
`run_backtest` produces `net_t = position_(t-1) * actual_t -
|position_t - position_(t-1)| * (transaction_cost + slippage)` at every
index `t ≥ 1`, an equity value of exactly `initial_capital` at index
`0`, and `equity_t = equity_(t-1) * (1 + net_t)` at every later index. -/
theorem run_backtest_equity_recurrence (tc slip cap : ℚ) (positions actual : List ℚ)
    (hlen : positions.length = actual.length) :
    (∀ t, 1 ≤ t → t < actual.length →
      (run_backtest tc slip cap positions actual).returns.getD t 0 =
        positions.getD (t - 1) 0 * actual.getD t 0 -
          |positions.getD t 0 - positions.getD (t - 1) 0| * (tc + slip)) ∧
    (actual ≠ [] →
      (run_backtest tc slip cap positions actual).equity_curve.getD 0 0 = cap) ∧
    (∀ t, 1 ≤ t → t < actual.length →
      (run_backtest tc slip cap positions actual).equity_curve.getD t 0 =
        (run_backtest tc slip cap positions actual).equity_curve.getD (t - 1) 0 *
          (1 + (run_backtest tc slip cap positions actual).returns.getD t 0)) := by
  set net := _calculate_strategy_returns tc slip (toSer positions) (toSer actual) with hnet
  have hnetlen : net.length = actual.length := by
    rw [hnet, sLengths, toSer_length, toSer_length, hlen, min_self]
  refine ⟨?_, ?_, ?_⟩
  · intro t h1 h2
    exact strategyReturns_getD tc slip hlen h2 (by omega)
  · intro hne
    have ha : 0 < actual.length := List.length_pos.mpr hne
    have hp : 0 < positions.length := by omega
    have hm : 0 < (net.map (fun x => 1 + x)).length := by
      simpa [hnetlen] using ha
    show ((cumprod (net.map (fun x => 1 + x))).map (· * cap)).getD 0 0 = cap
    rw [getD_mul_const, cumprod, cumprodAux_getD_zero 1 hm, getD_one_add,
      strategyReturns_getD_zero tc slip hp ha]
    ring
  · intro t h1 h2
    obtain ⟨s, rfl⟩ : ∃ s, t = s + 1 := ⟨t - 1, by omega⟩
    have hm : s + 1 < (net.map (fun x => 1 + x)).length := by
      simpa [hnetlen] using h2
    show ((cumprod (net.map (fun x => 1 + x))).map (· * cap)).getD (s + 1) 0 =
      ((cumprod (net.map (fun x => 1 + x))).map (· * cap)).getD (s + 1 - 1) 0 *
        (1 + net.getD (s + 1) 0)
    rw [getD_mul_const, getD_mul_const, cumprod, cumprodAux_getD_succ 1 hm, getD_one_add]
    simp only [Nat.add_sub_cancel]
    ring

/-- Witness for C2 at a concrete input. -/
theorem run_backtest_equity_recurrence_witness :
    ([1, -1, 1] : List ℚ).length = ([1/100, -2/100, 3/100] : List ℚ).length ∧
    (run_backtest (1/1000) (5/10000) 100000 [1, -1, 1] [1/100, -2/100, 3/100]).returns.getD 1 0 =
      (1 : ℚ) * (-2/100) - |(-1 : ℚ) - 1| * (1/1000 + 5/10000) := by
  refine ⟨by decide, ?_⟩
  have h := (run_backtest_equity_recurrence (1/1000) (5/10000) 100000
    [1, -1, 1] [1/100, -2/100, 3/100] (by decide)).1 1 (by decide) (by decide)
  rw [h]
  norm_num

/-- C1: the backtest is strictly causal — with the same positions
series, two actual-return series that agree at every index below `t`
yield identical equity-curve values at every index below `t`. -/
theorem run_backtest_no_lookahead (tc slip cap : ℚ) (positions r₁ r₂ : List ℚ) (t : ℕ)
    (h₁ : positions.length = r₁.length) (h₂ : positions.length = r₂.length)
    (hagree : ∀ s, s < t → r₁.getD s 0 = r₂.getD s 0) :
    ∀ s, s < t →
      (run_backtest tc slip cap positions r₁).equity_curve.getD s 0 =
        (run_backtest tc slip cap positions r₂).equity_curve.getD s 0 := by
  intro s hs
  set net₁ := _calculate_strategy_returns tc slip (toSer positions) (toSer r₁) with hn₁
  set net₂ := _calculate_strategy_returns tc slip (toSer positions) (toSer r₂) with hn₂
  have hl₁ : net₁.length = r₁.length := by
    rw [hn₁, sLengths, toSer_length, toSer_length, h₁, min_self]
  have hl₂ : net₂.length = r₂.length := by
    rw [hn₂, sLengths, toSer_length, toSer_length, h₂, min_self]
  have hnets : ∀ u, u < t → net₁[u]? = net₂[u]? := by
    intro u hu
    by_cases hin : u < r₁.length
    · have hin₂ : u < r₂.length := by omega
      have e₁ : net₁[u]? = some (net₁.getD u 0) := by
        rw [List.getElem?_eq_getElem (by omega), List.getD_eq_getElem _ _ (by omega)]
      have e₂ : net₂[u]? = some (net₂.getD u 0) := by
        rw [List.getElem?_eq_getElem (by omega), List.getD_eq_getElem _ _ (by omega)]
      rw [e₁, e₂]
      by_cases hu0 : u = 0
      · subst hu0
        rw [hn₁, hn₂, strategyReturns_getD_zero tc slip (by omega) hin,
          strategyReturns_getD_zero tc slip (by omega) hin₂]
      · rw [hn₁, hn₂, strategyReturns_getD tc slip h₁ hin hu0,
          strategyReturns_getD tc slip h₂ hin₂ hu0,
          hagree u hu]
    · have : net₁[u]? = none := List.getElem?_eq_none (by omega)
      have h2n : net₂[u]? = none := List.getElem?_eq_none (by omega)
      rw [this, h2n]
  have htake : net₁.take t = net₂.take t := take_congr_of_getElem? hnets
  have hmtake : (net₁.map (fun x => 1 + x)).take t = (net₂.map (fun x => 1 + x)).take t := by
    rw [← List.map_take, ← List.map_take, htake]
  have hcum : (cumprod (net₁.map (fun x => 1 + x))).take t =
      (cumprod (net₂.map (fun x => 1 + x))).take t := by
    rw [cumprod, cumprod, ← cumprodAux_take, ← cumprodAux_take, hmtake]
  show ((cumprod (net₁.map (fun x => 1 + x))).map (· * cap)).getD s 0 =
    ((cumprod (net₂.map (fun x => 1 + x))).map (· * cap)).getD s 0
  rw [getD_mul_const, getD_mul_const, ← getD_take (l := cumprod (net₁.map (fun x => 1 + x)))
    (d := (0 : ℚ)) hs, ← getD_take (l := cumprod (net₂.map (fun x => 1 + x)))
    (d := (0 : ℚ)) hs, hcum]

/-- Witness for C1 at a concrete input: the two return series differ
only at index 2, and the equity values at indices 0 and 1 coincide. -/
theorem run_backtest_no_lookahead_witness :
    (∀ s, s < 2 → ([1/100, 2/100, 3/100] : List ℚ).getD s 0 =
      ([1/100, 2/100, -5/100] : List ℚ).getD s 0) ∧
    (run_backtest (1/1000) (5/10000) 100000 [1, -1, 1] [1/100, 2/100, 3/100]).equity_curve.getD 1 0 =
      (run_backtest (1/1000) (5/10000) 100000 [1, -1, 1] [1/100, 2/100, -5/100]).equity_curve.getD 1 0 := by
  refine ⟨by intro s hs; interval_cases s <;> rfl, ?_⟩
  exact run_backtest_no_lookahead (1/1000) (5/10000) 100000 [1, -1, 1]
    [1/100, 2/100, 3/100] [1/100, 2/100, -5/100] 2 (by decide) (by decide)
    (by intro s hs; interval_cases s <;> rfl) 1 (by decide)

/-- C6: at every index `t ≥ 1` the charged transaction cost equals
`|position_t - position_(t-1)| * (cost_rate + slippage_rate)`; in
particular it is exactly `0` whenever the position is unchanged. -/
theorem transaction_cost_turnover (tc slip : ℚ) (positions : List ℚ) (t : ℕ)
    (ht1 : 1 ≤ t) (ht : t < positions.length) :
    (transactionCostSeries tc slip (toSer positions)).getD t none =
      some (|positions.getD t 0 - positions.getD (t - 1) 0| * (tc + slip)) ∧
    (positions.getD t 0 = positions.getD (t - 1) 0 →
      (transactionCostSeries tc slip (toSer positions)).getD t none = some 0) := by
  have h := transactionCostSeries_getD tc slip ht (by omega)
  refine ⟨h, fun heq => ?_⟩
  rw [h, heq, sub_self, abs_zero, zero_mul]

/-- Witness for C6 at a concrete input with an unchanged position. -/
theorem transaction_cost_turnover_witness :
    (1 ≤ 2 ∧ 2 < ([1, 1, 1, -1] : List ℚ).length) ∧
    (transactionCostSeries (1/1000) (5/10000) (toSer [1, 1, 1, -1])).getD 2 none = some 0 := by
  refine ⟨⟨by decide, by decide⟩, ?_⟩
  exact (transaction_cost_turnover (1/1000) (5/10000) [1, 1, 1, -1] 2
    (by decide) (by decide)).2 (by simp)

/-! ### Lemmas: translation invariance of the population variance -/

lemma sum_map_sub (l : List ℚ) (c : ℚ) :
    (l.map (fun x => x - c)).sum = l.sum - l.length * c := by
  induction l with
  | nil => simp
  | cons x xs ih =>
    simp only [List.map_cons, List.sum_cons, ih, List.length_cons]
    push_cast
    ring

lemma mean_map_sub {l : List ℚ} (c : ℚ) (h : l ≠ []) :
    mean (l.map (fun x => x - c)) = mean l - c := by
  have hn : (l.length : ℚ) ≠ 0 := by
    exact_mod_cast (List.length_pos.mpr h).ne'
  rw [mean, mean, sum_map_sub, List.length_map]
  field_simp

lemma popVar_map_sub {l : List ℚ} (c : ℚ) (h : l ≠ []) :
    popVar (l.map (fun x => x - c)) = popVar l := by
  rw [popVar, popVar, List.length_map, List.map_map, mean_map_sub c h]
  congr 1
  congr 1
  apply List.map_congr_left
  intro a _
  simp only [Function.comp_apply]
  ring

/-- C3: for every non-empty return series, `calculate_sharpe_ratio`
equals the spec's formula `sqrt(252) * mean(excess) / std(excess)` with
the `0.0` fallback exactly when the standard deviation of the excess
returns is zero (the code tests and divides by `std(returns)`, which
coincides with `std(excess)` in exact arithmetic). -/
theorem sharpe_ratio_matches_spec (returns : List ℚ) (risk_free_rate : ℚ)
    (h : returns ≠ []) :
    calculate_sharpe_ratio returns risk_free_rate =
      MVal.num (sharpeSpec returns risk_free_rate) := by
  have hlen : returns.length ≠ 0 := fun hl => h (List.length_eq_zero.mp hl)
  have hvar : popVar (returns.map (fun x => x - risk_free_rate / 252)) = popVar returns :=
    popVar_map_sub _ h
  simp only [calculate_sharpe_ratio, sharpeSpec, hvar, if_neg hlen]
  by_cases hv : popVar returns = 0 <;> simp [hv]

/-- Witness for C3 at a concrete input. -/
theorem sharpe_ratio_matches_spec_witness :
    ([1/100, 3/100] : List ℚ) ≠ [] ∧
    calculate_sharpe_ratio [1/100, 3/100] (2/100) =
      MVal.num (sharpeSpec [1/100, 3/100] (2/100)) :=
  ⟨by simp, sharpe_ratio_matches_spec [1/100, 3/100] (2/100) (by simp)⟩

/-! ### Lemmas: drawdown series -/

lemma cumprodAux_pos {a : ℚ} {l : List ℚ} (ha : 0 < a) (hl : ∀ x ∈ l, 0 < x) :
    ∀ y ∈ cumprodAux a l, 0 < y := by
  induction l generalizing a with
  | nil => simp [cumprodAux]
  | cons x xs ih =>
    intro y hy
    have hax : 0 < a * x := mul_pos ha (hl x (List.mem_cons_self _ _))
    rcases List.mem_cons.mp hy with rfl | hy'
    · exact hax
    · exact ih hax (fun z hz => hl z (List.mem_cons_of_mem _ hz)) y hy'

lemma zip_runMaxGo_nonpos {l : List ℚ} {a : ℚ} (ha : 0 < a) (hl : ∀ x ∈ l, 0 < x) :
    ∀ d ∈ List.zipWith (fun w m => (w - m) / m) l (runMaxGo a l), d ≤ 0 := by
  induction l generalizing a with
  | nil => simp
  | cons x xs ih =>
    intro d hd
    have hm : 0 < max a x := lt_of_lt_of_le (hl x (List.mem_cons_self _ _)) (le_max_right a x)
    rcases List.mem_cons.mp hd with rfl | hd'
    · exact div_nonpos_of_nonpos_of_nonneg (sub_nonpos.mpr (le_max_right a x)) hm.le
    · exact ih hm (fun z hz => hl z (List.mem_cons_of_mem _ hz)) d hd'

lemma chain_cumprodAux {l : List ℚ} {a : ℚ} (ha : 0 < a) (hl : ∀ x ∈ l, 1 ≤ x) :
    List.Chain (· ≤ ·) a (cumprodAux a l) := by
  induction l generalizing a with
  | nil => exact List.Chain.nil
  | cons x xs ih =>
    have hx1 : 1 ≤ x := hl x (List.mem_cons_self _ _)
    have hax : 0 < a * x := mul_pos ha (lt_of_lt_of_le one_pos hx1)
    exact List.Chain.cons (le_mul_of_one_le_right ha.le hx1)
      (ih hax (fun z hz => hl z (List.mem_cons_of_mem _ hz)))

lemma runMaxGo_of_chain {l : List ℚ} {a : ℚ} (h : List.Chain (· ≤ ·) a l) :
    runMaxGo a l = l := by
  induction l generalizing a with
  | nil => rfl
  | cons x xs ih =>
    rcases h with _ | ⟨hax, hxs⟩
    rw [runMaxGo, max_eq_right hax, ih hxs]

lemma zipWith_dd_self (l : List ℚ) :
    List.zipWith (fun w m => (w - m) / m) l l = l.map (fun _ => (0 : ℚ)) := by
  induction l with
  | nil => rfl
  | cons x xs ih => simp [ih]

lemma foldl_min_nonpos {x : ℚ} {xs : List ℚ} (hx : x ≤ 0) (hxs : ∀ y ∈ xs, y ≤ 0) :
    xs.foldl min x ≤ 0 := by
  induction xs generalizing x with
  | nil => exact hx
  | cons y ys ih =>
    exact ih (le_trans (min_le_left x y) hx) (fun z hz => hxs z (List.mem_cons_of_mem _ hz))

lemma foldl_min_zeros {xs : List ℚ} (h : ∀ y ∈ xs, y = 0) : xs.foldl min (0 : ℚ) = 0 := by
  induction xs with
  | nil => rfl
  | cons y ys ih =>
    rw [List.foldl_cons, h y (List.mem_cons_self _ _), min_self]
    exact ih (fun z hz => h z (List.mem_cons_of_mem _ hz))

/-- C4: on a non-empty return series whose wealth factors `1 + r` are
all positive, `calculate_max_drawdown` returns a value `≤ 0`, and
exactly `0` when every return is non-negative. -/
theorem max_drawdown_nonpos (r : List ℚ) (hne : r ≠ [])
    (hpos : ∀ x ∈ r, 0 < 1 + x) :
    ∃ d, calculate_max_drawdown r = some d ∧ d ≤ 0 ∧ ((∀ x ∈ r, 0 ≤ x) → d = 0) := by
  obtain ⟨r0, rs, rfl⟩ := List.exists_cons_of_ne_nil hne
  have hc0 : 0 < 1 * (1 + r0) := by
    rw [one_mul]
    exact hpos r0 (List.mem_cons_self _ _)
  have htailpos : ∀ x ∈ rs.map (fun x => 1 + x), 0 < x := by
    intro x hx
    obtain ⟨y, hy, rfl⟩ := List.mem_map.mp hx
    exact hpos y (List.mem_cons_of_mem _ hy)
  have hctail : ∀ y ∈ cumprodAux (1 * (1 + r0)) (rs.map (fun x => 1 + x)), 0 < y :=
    cumprodAux_pos hc0 htailpos
  have hdd : drawdownSeries (r0 :: rs) =
      0 :: List.zipWith (fun w m => (w - m) / m)
        (cumprodAux (1 * (1 + r0)) (rs.map (fun x => 1 + x)))
        (runMaxGo (1 * (1 + r0)) (cumprodAux (1 * (1 + r0)) (rs.map (fun x => 1 + x)))) := by
    simp only [drawdownSeries, cumprod, List.map_cons, cumprodAux, runMax,
      List.zipWith_cons_cons, sub_self, zero_div]
  refine ⟨(List.zipWith (fun w m => (w - m) / m)
      (cumprodAux (1 * (1 + r0)) (rs.map (fun x => 1 + x)))
      (runMaxGo (1 * (1 + r0)) (cumprodAux (1 * (1 + r0)) (rs.map (fun x => 1 + x))))).foldl
        min 0, ?_, ?_, ?_⟩
  · rw [calculate_max_drawdown, hdd]
    rfl
  · exact foldl_min_nonpos le_rfl (zip_runMaxGo_nonpos hc0 hctail)
  · intro hmono
    have hone : ∀ x ∈ rs.map (fun x => 1 + x), 1 ≤ x := by
      intro x hx
      obtain ⟨y, hy, rfl⟩ := List.mem_map.mp hx
      have := hmono y (List.mem_cons_of_mem _ hy)
      linarith
    rw [runMaxGo_of_chain (chain_cumprodAux hc0 hone), zipWith_dd_self]
    apply foldl_min_zeros
    intro y hy
    obtain ⟨z, _, rfl⟩ := List.mem_map.mp hy
    rfl

/-- Witness for C4 at a concrete non-decreasing input. -/
theorem max_drawdown_nonpos_witness :
    (([0, 1/10] : List ℚ) ≠ [] ∧ ∀ x ∈ ([0, 1/10] : List ℚ), 0 < 1 + x) ∧
    ∃ d, calculate_max_drawdown [0, 1/10] = some d ∧ d ≤ 0 ∧
      ((∀ x ∈ ([0, 1/10] : List ℚ), 0 ≤ x) → d = 0) := by
  constructor
  · constructor
    · simp
    · intro x hx
      rcases List.mem_cons.mp hx with rfl | hx'
      · norm_num
      · rcases List.mem_cons.mp hx' with rfl | h
        · norm_num
        · simp at h
  · exact max_drawdown_nonpos [0, 1/10] (by simp) (by
      intro x hx
      rcases List.mem_cons.mp hx with rfl | hx'
      · norm_num
      · rcases List.mem_cons.mp hx' with rfl | h
        · norm_num
        · simp at h)

/-! ### Lemma: the sample variance is non-negative -/

lemma sampleVar_nonneg {l : List ℚ} (h : 2 ≤ l.length) : 0 ≤ sampleVar l := by
  apply div_nonneg
  · apply List.sum_nonneg
    intro x hx
    obtain ⟨y, _, rfl⟩ := List.mem_map.mp hx
    exact sq_nonneg _
  · have : (2 : ℚ) ≤ l.length := by exact_mod_cast h
    linarith

/-- C5: the position sizer agrees with the spec at every input — with
valid predictions and nonzero (sample) standard deviation, positions
are the clipped z-scores; with zero standard deviation (including a
single valid prediction, whose pandas std is NaN and fails the
`> 0` test), positions are prediction signs; with no valid prediction,
positions are all `0` — missing predictions propagate as missing. -/
theorem predictions_to_positions_matches_spec (predictions : List (Option ℚ)) :
    predictionsToPositions predictions = predictionsToPositionsSpec predictions := by
  by_cases hc : predictions.filterMap id = []
  · have hlen : ¬ 0 < (predictions.filterMap id).length := by simp [hc]
    simp only [predictionsToPositions, predictionsToPositionsSpec, if_neg hlen, if_pos hc]
  · have hlen : 0 < (predictions.filterMap id).length := List.length_pos.mpr hc
    by_cases h1 : (predictions.filterMap id).length ≤ 1
    · simp only [predictionsToPositions, predictionsToPositionsSpec, if_pos hlen, if_neg hc,
        sampleVarOpt, if_pos h1]
      simp
    · have h2 : 2 ≤ (predictions.filterMap id).length := by omega
      by_cases hv : sampleVar (predictions.filterMap id) = 0
      · have hnot : ¬ (0 : ℚ) < sampleVar (predictions.filterMap id) := by
          rw [hv]
          exact lt_irrefl 0
        simp only [predictionsToPositions, predictionsToPositionsSpec, if_pos hlen, if_neg hc,
          sampleVarOpt, if_neg h1]
        simp [hnot, hv]
      · have hvpos : (0 : ℚ) < sampleVar (predictions.filterMap id) :=
          lt_of_le_of_ne (sampleVar_nonneg h2) (Ne.symm hv)
        simp only [predictionsToPositions, predictionsToPositionsSpec, if_pos hlen, if_neg hc,
          sampleVarOpt, if_neg h1]
        simp [hvpos, hv]

/-! ### Claims about NaN behaviour and the metrics dictionary -/

/-- C8: evaluation of the code at the failing input.  On single-element
series the pandas sample standard deviation (`ddof = 1`) is NaN, the
`== 0` guard of `calculate_information_ratio` is `False` on NaN, and
the function returns NaN rather than the documented `0.0` fallback;
`calculate_alpha_beta` likewise returns NaN for both alpha and beta. -/
theorem information_ratio_single_element_nan :
    calculate_information_ratio [1/100] [1/50] = MVal.nan ∧
    calculate_alpha_beta [1/100] [1/50] (2/100) = (MVal.nan, MVal.nan) :=
  ⟨rfl, rfl⟩

/-- C10: `run_backtest` always passes the traded asset's own actual
returns as the benchmark, so for every (non-degenerate) input the
returned metrics dictionary carries the `information_ratio`, `alpha`
and `beta` keys, computed from the strategy's net returns against the
asset's raw returns. -/
theorem run_backtest_always_benchmarked (tc slip cap : ℚ)
    (positions actual : List ℚ) (hp : positions ≠ []) (ha : actual ≠ []) :
    (run_backtest tc slip cap positions actual).metrics =
      calculate_all_metrics (run_backtest tc slip cap positions actual).returns
        (some actual) ∧
    "information_ratio" ∈ (run_backtest tc slip cap positions actual).metrics.map Prod.fst ∧
    "alpha" ∈ (run_backtest tc slip cap positions actual).metrics.map Prod.fst ∧
    "beta" ∈ (run_backtest tc slip cap positions actual).metrics.map Prod.fst := by
  refine ⟨rfl, ?_, ?_, ?_⟩ <;>
    simp [run_backtest, calculate_all_metrics]

/-- Witness for C10 at a concrete input. -/
theorem run_backtest_always_benchmarked_witness :
    (([1] : List ℚ) ≠ [] ∧ ([2/100] : List ℚ) ≠ []) ∧
    "alpha" ∈ (run_backtest 0 0 1 [1] [2/100]).metrics.map Prod.fst :=
  ⟨⟨by simp, by simp⟩,
    (run_backtest_always_benchmarked 0 0 1 [1] [2/100] (by simp) (by simp)).2.2.1⟩

/-! ### Lemmas: the buy set — filtering commutes with the stable sort -/

lemma orderedInsert_all_le {x : String × ℚ} {m : List (String × ℚ)}
    (h : ∀ y ∈ m, predGE x y) : List.orderedInsert predGE x m = x :: m := by
  cases m with
  | nil => rfl
  | cons b bs => rw [List.orderedInsert, if_pos (h b (List.mem_cons_self _ _))]

lemma filter_orderedInsert (x : String × ℚ) (m : List (String × ℚ))
    (hs : List.Sorted predGE m) :
    (List.orderedInsert predGE x m).filter (fun p => 1/100 < p.2) =
      if 1/100 < x.2 then
        List.orderedInsert predGE x (m.filter (fun p => 1/100 < p.2))
      else m.filter (fun p => 1/100 < p.2) := by
  induction m with
  | nil =>
    by_cases hPx : (1:ℚ)/100 < x.2 <;>
      simp [List.orderedInsert, List.filter_cons, hPx]
  | cons b bs ih =>
    obtain ⟨hb, hbs⟩ := List.sorted_cons.mp hs
    by_cases hxb : predGE x b
    · rw [List.orderedInsert, if_pos hxb]
      by_cases hPx : (1:ℚ)/100 < x.2
      · by_cases hPb : (1:ℚ)/100 < b.2
        · simp only [List.filter_cons, hPx, hPb, decide_True, if_true, if_pos hPx]
          rw [List.orderedInsert, if_pos hxb]
        · have hnil : bs.filter (fun p => 1/100 < p.2) = [] := by
            rw [List.filter_eq_nil_iff]
            intro y hy
            simp only [decide_eq_true_eq, not_lt]
            exact le_trans (hb y hy) (not_lt.mp hPb)
          simp only [List.filter_cons, hPx, hPb, decide_True, decide_False, if_true,
            Bool.false_eq_true, if_false, hnil, if_pos hPx]
          rfl
      · simp only [List.filter_cons, hPx, decide_False, Bool.false_eq_true, if_false,
          if_neg hPx]
    · rw [List.orderedInsert, if_neg hxb]
      have hlt : x.2 < b.2 := not_le.mp (fun hle => hxb hle)
      by_cases hPx : (1:ℚ)/100 < x.2
      · have hPb : (1:ℚ)/100 < b.2 := lt_trans hPx hlt
        simp only [List.filter_cons, hPb, decide_True, if_true, ih hbs, if_pos hPx]
        rw [List.orderedInsert, if_neg hxb]
      · simp only [List.filter_cons, ih hbs, if_neg hPx]

lemma insertionSort_filter (l : List (String × ℚ)) :
    (List.insertionSort predGE l).filter (fun p => 1/100 < p.2) =
      List.insertionSort predGE (l.filter (fun p => 1/100 < p.2)) := by
  induction l with
  | nil => rfl
  | cons x xs ih =>
    rw [List.insertionSort, filter_orderedInsert x _ (List.sorted_insertionSort predGE xs), ih,
      List.filter_cons]
    by_cases hPx : (1:ℚ)/100 < x.2
    · simp only [hPx, decide_True, if_true, List.insertionSort]
    · simp only [hPx, decide_False, Bool.false_eq_true, if_false]

lemma buySymbols_eq_spec (predictions : List (String × ℚ)) :
    buySymbols predictions = buySymbolsSpec predictions := by
  rw [buySymbols, buySymbolsSpec, sortPredsDesc, sortPredsDesc, insertionSort_filter]

/-! ### Lemmas: the sell and buy phases -/

lemma sellPhase_eq (tc : ℚ) (price : String → ℚ) (date : String) (buys : List String)
    (pos : List (String × ℚ)) (cash : ℚ) (trades : List Trade) :
    sellPhase tc price date buys pos cash trades =
      (pos.map (fun p => if 0 < p.2 ∧ p.1 ∉ buys then (p.1, 0) else p),
       cash + ((pos.filter (fun p => 0 < p.2 ∧ p.1 ∉ buys)).map
         (fun p => p.2 * price p.1 - p.2 * price p.1 * tc)).sum,
       trades ++ (pos.filter (fun p => 0 < p.2 ∧ p.1 ∉ buys)).map
         (fun p => ⟨date, p.1, "SELL", p.2, price p.1,
           p.2 * price p.1 - p.2 * price p.1 * tc⟩)) := by
  induction pos generalizing cash trades with
  | nil => simp [sellPhase]
  | cons p ps ih =>
    obtain ⟨sym, q⟩ := p
    by_cases h : 0 < q ∧ sym ∉ buys
    · simp only [sellPhase, ih, List.filter_cons, List.map_cons, List.sum_cons]
      simp [h, add_assoc, List.append_assoc]
    · simp only [sellPhase, ih, List.filter_cons, List.map_cons, List.sum_cons]
      simp [h]

lemma setPos_lookup_ne {pos : List (String × ℚ)} {s sym : String} {v : ℚ}
    (h : sym ≠ s) : (setPos pos s v).lookup sym = pos.lookup sym := by
  induction pos with
  | nil =>
    simp [setPos, List.lookup, beq_false_of_ne h]
  | cons p ps ih =>
    obtain ⟨a, b⟩ := p
    by_cases has : a = s
    · subst has
      simp [setPos, List.lookup, beq_false_of_ne h]
    · simp only [setPos, if_neg has, List.lookup]
      cases hsa : (sym == a) with
      | true => rfl
      | false => exact ih

lemma buyPhase_lookup_not_mem {tc : ℚ} {price : String → ℚ} {date : String}
    {alloc : ℚ} {syms : List String} {sym : String} (hmem : sym ∉ syms) :
    ∀ pos cash trades,
      ((buyPhase tc price date alloc syms pos cash trades).1).lookup sym = pos.lookup sym := by
  induction syms with
  | nil => intro pos cash trades; rfl
  | cons s rest ih =>
    intro pos cash trades
    have hne : sym ≠ s := fun hs => hmem (hs ▸ List.mem_cons_self _ _)
    have hrest : sym ∉ rest := fun hr => hmem (List.mem_cons_of_mem _ hr)
    rw [buyPhase]
    split
    · rw [ih hrest, setPos_lookup_ne hne]
    · exact ih hrest _ _ _

lemma buyPhase_trades_exists (tc : ℚ) (price : String → ℚ) (date : String) (alloc : ℚ) :
    ∀ (syms : List String) pos cash trades,
      ∃ tb, (buyPhase tc price date alloc syms pos cash trades).2.2 = trades ++ tb ∧
        ∀ tr ∈ tb, tr.action = "BUY" := by
  intro syms
  induction syms with
  | nil => intro pos cash trades; exact ⟨[], by simp [buyPhase], by simp⟩
  | cons s rest ih =>
    intro pos cash trades
    rw [buyPhase]
    split
    · obtain ⟨tb, htb, hact⟩ := ih (setPos pos s (alloc / price s)) (cash - alloc * (1 + tc))
        (trades ++ [⟨date, s, "BUY", alloc / price s, price s, alloc⟩])
      refine ⟨⟨date, s, "BUY", alloc / price s, price s, alloc⟩ :: tb, ?_, ?_⟩
      · rw [htb, List.append_assoc]
        rfl
      · intro tr htr
        rcases List.mem_cons.mp htr with rfl | h'
        · rfl
        · exact hact tr h'
    · exact ih pos cash trades

lemma sell_map_lookup (buys : List String) :
    ∀ (pos : List (String × ℚ)) (sym : String) (q : ℚ), pos.lookup sym = some q →
      (pos.map (fun p => if 0 < p.2 ∧ p.1 ∉ buys then (p.1, 0) else p)).lookup sym =
        some (if 0 < q ∧ sym ∉ buys then 0 else q) := by
  intro pos
  induction pos with
  | nil => intro sym q h; simp [List.lookup] at h
  | cons p ps ih =>
    intro sym q h
    obtain ⟨a, b⟩ := p
    rw [List.lookup_cons] at h
    cases hsa : (sym == a) with
    | true =>
      rw [hsa] at h
      have hq : b = q := by injection h
      have heq : sym = a := beq_iff_eq.mp hsa
      subst hq; subst heq
      by_cases hC : 0 < b ∧ sym ∉ buys
      · simp only [List.map_cons, if_pos hC, List.lookup_cons, hsa]
      · simp only [List.map_cons, if_neg hC, List.lookup_cons, hsa]
    | false =>
      rw [hsa] at h
      by_cases hC : 0 < b ∧ a ∉ buys
      · simp only [List.map_cons, if_pos hC, List.lookup_cons, hsa]
        exact ih sym q h
      · simp only [List.map_cons, if_neg hC, List.lookup_cons, hsa]
        exact ih sym q h

lemma mem_of_lookup :
    ∀ {pos : List (String × ℚ)} {sym : String} {q : ℚ},
      pos.lookup sym = some q → (sym, q) ∈ pos := by
  intro pos
  induction pos with
  | nil => intro sym q h; simp [List.lookup] at h
  | cons p ps ih =>
    intro sym q h
    obtain ⟨a, b⟩ := p
    rw [List.lookup_cons] at h
    cases hsa : (sym == a) with
    | true =>
      rw [hsa] at h
      have hq : b = q := by injection h
      have heq : sym = a := beq_iff_eq.mp hsa
      subst hq; subst heq
      exact List.mem_cons_self _ _
    | false =>
      rw [hsa] at h
      exact List.mem_cons_of_mem _ (ih h)

lemma filter_key_of_nodup :
    ∀ (pos : List (String × ℚ)) (sym : String) (q : ℚ),
      (pos.map Prod.fst).Nodup → pos.lookup sym = some q →
      pos.filter (fun p => p.1 = sym) = [(sym, q)] := by
  intro pos
  induction pos with
  | nil => intro sym q _ h; simp [List.lookup] at h
  | cons p ps ih =>
    intro sym q hnd h
    obtain ⟨a, b⟩ := p
    rw [List.map_cons, List.nodup_cons] at hnd
    rw [List.lookup_cons] at h
    cases hsa : (sym == a) with
    | true =>
      rw [hsa] at h
      have hq : b = q := by injection h
      have heq : sym = a := beq_iff_eq.mp hsa
      subst hq; subst heq
      have hnil : ps.filter (fun p => p.1 = sym) = [] := by
        rw [List.filter_eq_nil_iff]
        intro y hy
        simp only [decide_eq_true_eq]
        intro hkey
        exact hnd.1 (List.mem_map.mpr ⟨y, hy, hkey⟩)
      simp [List.filter_cons, hnil]
    | false =>
      rw [hsa] at h
      have hne : ¬ (a = sym) := fun has => by
        rw [has] at hsa
        simp at hsa
      simp only [List.filter_cons, hne, decide_False, Bool.false_eq_true, if_false]
      exact ih sym q hnd.2 h

/-- C7 (amended: on steps where at least one prediction was collected):
the buy set equals the spec's top-2-above-1% ranking with stable ties,
the step's trade log appends all SELL trades before any BUY trade, the
post-sell cash equals the old cash plus the net sale proceeds, and
every held position outside the buy set is liquidated to `0` with
exactly one SELL trade of the full quantity at that day's price. -/
theorem portfolio_step_buyset_liquidation
    (tc : ℚ) (price : String → ℚ) (date : String)
    (preds : List (String × ℚ)) (st : PortState)
    (hne : preds ≠ []) (hnd : (st.positions.map Prod.fst).Nodup) :
    buySymbols preds = buySymbolsSpec preds ∧
    ∃ sells buysTr,
      (stepTrade tc price date preds st).trades = st.trades ++ sells ++ buysTr ∧
      (∀ tr ∈ sells, tr.action = "SELL") ∧
      (∀ tr ∈ buysTr, tr.action = "BUY") ∧
      (sellPhase tc price date (buySymbols preds) st.positions st.cash st.trades).2.1 =
        st.cash + (sells.map Trade.value).sum ∧
      (∀ sym q, st.positions.lookup sym = some q → 0 < q → sym ∉ buySymbols preds →
        (stepTrade tc price date preds st).positions.lookup sym = some 0 ∧
        (sells.filter (fun tr => tr.symbol = sym)).length = 1 ∧
        ∃ tr ∈ sells, tr.symbol = sym ∧ tr.quantity = q ∧ tr.price = price sym ∧
          tr.value = q * price sym - q * price sym * tc) := by
  refine ⟨buySymbols_eq_spec preds, ?_⟩
  have hsell := sellPhase_eq tc price date (buySymbols preds) st.positions st.cash st.trades
  refine ⟨(st.positions.filter (fun p => 0 < p.2 ∧ p.1 ∉ buySymbols preds)).map
    (fun p => ⟨date, p.1, "SELL", p.2, price p.1,
      p.2 * price p.1 - p.2 * price p.1 * tc⟩), ?_⟩
  have hvals : ((st.positions.filter (fun p => 0 < p.2 ∧ p.1 ∉ buySymbols preds)).map
      (fun p => (⟨date, p.1, "SELL", p.2, price p.1,
        p.2 * price p.1 - p.2 * price p.1 * tc⟩ : Trade))).map Trade.value =
      (st.positions.filter (fun p => 0 < p.2 ∧ p.1 ∉ buySymbols preds)).map
        (fun p => p.2 * price p.1 - p.2 * price p.1 * tc) := by
    rw [List.map_map]
    rfl
  have hposlookup : ∀ sym q, st.positions.lookup sym = some q → 0 < q →
      sym ∉ buySymbols preds →
      ((sellPhase tc price date (buySymbols preds) st.positions st.cash st.trades).1).lookup
        sym = some 0 := by
    intro sym q hq hqpos hsym
    rw [hsell]
    have := sell_map_lookup (buySymbols preds) st.positions sym q hq
    rw [this, if_pos ⟨hqpos, hsym⟩]
  have hcount : ∀ sym q, st.positions.lookup sym = some q → 0 < q →
      sym ∉ buySymbols preds →
      (((st.positions.filter (fun p => 0 < p.2 ∧ p.1 ∉ buySymbols preds)).map
        (fun p => (⟨date, p.1, "SELL", p.2, price p.1,
          p.2 * price p.1 - p.2 * price p.1 * tc⟩ : Trade))).filter
            (fun tr => tr.symbol = sym)).length = 1 := by
    intro sym q hq hqpos hsym
    rw [List.filter_map]
    have hkey : st.positions.filter (fun p => p.1 = sym) = [(sym, q)] :=
      filter_key_of_nodup st.positions sym q hnd hq
    have hcomp : (st.positions.filter (fun p => 0 < p.2 ∧ p.1 ∉ buySymbols preds)).filter
        ((fun tr => decide (tr.symbol = sym)) ∘
          (fun p => (⟨date, p.1, "SELL", p.2, price p.1,
            p.2 * price p.1 - p.2 * price p.1 * tc⟩ : Trade))) =
        (st.positions.filter (fun p => 0 < p.2 ∧ p.1 ∉ buySymbols preds)).filter
          (fun p => p.1 = sym) := rfl
    rw [hcomp, List.filter_filter, List.filter_congr (l := st.positions)
      (q := fun p => (decide (0 < p.2 ∧ p.1 ∉ buySymbols preds)) && decide (p.1 = sym))
      (fun a _ => Bool.and_comm _ _), ← List.filter_filter, hkey, List.filter_cons]
    simp [hqpos, hsym]
  have hextr : ∀ sym q, st.positions.lookup sym = some q → 0 < q →
      sym ∉ buySymbols preds →
      ∃ tr ∈ (st.positions.filter (fun p => 0 < p.2 ∧ p.1 ∉ buySymbols preds)).map
        (fun p => (⟨date, p.1, "SELL", p.2, price p.1,
          p.2 * price p.1 - p.2 * price p.1 * tc⟩ : Trade)),
        tr.symbol = sym ∧ tr.quantity = q ∧ tr.price = price sym ∧
          tr.value = q * price sym - q * price sym * tc := by
    intro sym q hq hqpos hsym
    refine ⟨⟨date, sym, "SELL", q, price sym, q * price sym - q * price sym * tc⟩, ?_, rfl,
      rfl, rfl, rfl⟩
    have hmem : (sym, q) ∈ st.positions.filter (fun p => 0 < p.2 ∧ p.1 ∉ buySymbols preds) :=
      List.mem_filter.mpr ⟨mem_of_lookup hq, by simp [hqpos, hsym]⟩
    exact List.mem_map_of_mem _ hmem
  by_cases hb : buySymbols preds = []
  · refine ⟨[], ?_, ?_, by simp, ?_, ?_⟩
    · simp only [stepTrade, if_neg hne, if_pos hb]
      rw [hsell, hb]
      simp [List.append_assoc]
    · intro tr htr
      obtain ⟨p, _, rfl⟩ := List.mem_map.mp htr
      rfl
    · rw [hsell, hvals]
    · intro sym q hq hqpos hsym
      refine ⟨?_, hcount sym q hq hqpos hsym, hextr sym q hq hqpos hsym⟩
      simp only [stepTrade, if_neg hne, if_pos hb]
      exact hposlookup sym q hq hqpos hsym
  · obtain ⟨tb, htb, hact⟩ := buyPhase_trades_exists tc price date
      ((sellPhase tc price date (buySymbols preds) st.positions st.cash st.trades).2.1 *
        (95/100) / (buySymbols preds).length)
      (buySymbols preds)
      (sellPhase tc price date (buySymbols preds) st.positions st.cash st.trades).1
      (sellPhase tc price date (buySymbols preds) st.positions st.cash st.trades).2.1
      (sellPhase tc price date (buySymbols preds) st.positions st.cash st.trades).2.2
    refine ⟨tb, ?_, ?_, hact, ?_, ?_⟩
    · simp only [stepTrade, if_neg hne, if_neg hb]
      rw [htb, hsell]
    · intro tr htr
      obtain ⟨p, _, rfl⟩ := List.mem_map.mp htr
      rfl
    · rw [hsell, hvals]
    · intro sym q hq hqpos hsym
      refine ⟨?_, hcount sym q hq hqpos hsym, hextr sym q hq hqpos hsym⟩
      simp only [stepTrade, if_neg hne, if_neg hb]
      rw [buyPhase_lookup_not_mem hsym]
      exact hposlookup sym q hq hqpos hsym

/-- Witness for C7 at a concrete input. -/
theorem portfolio_step_buyset_liquidation_witness :
    (([("A", (1:ℚ)/20)] : List (String × ℚ)) ≠ [] ∧
      ((([("A", (0:ℚ)), ("B", 5)] : List (String × ℚ)).map Prod.fst).Nodup)) ∧
    buySymbols [("A", 1/20)] = buySymbolsSpec [("A", 1/20)] := by
  refine ⟨⟨by simp, by simp⟩, ?_⟩
  exact (portfolio_step_buyset_liquidation (1/1000) (fun _ => 2) "d" [("A", 1/20)]
    ⟨100, [("A", 0), ("B", 5)], []⟩ (by simp) (by simp)).1

/-- C7 counterexample to the claim as frozen: at a step where no
prediction was collected, the trading block is skipped entirely, so a
held position outside the (empty) buy set is not liquidated. -/
theorem portfolio_step_no_predictions_holds_position :
    stepTrade (1/1000) (fun _ => 1) "d" [] ⟨100, [("A", 5)], []⟩ =
      (⟨100, [("A", 5)], []⟩ : PortState) ∧
    buySymbolsSpec [] = [] ∧
    (⟨100, [("A", 5)], []⟩ : PortState).positions.lookup "A" = some 5 ∧
    (5 : ℚ) ≠ 0 := by
  refine ⟨rfl, rfl, rfl, by norm_num⟩

/-! ### Lemmas: non-negativity invariant of the simulator -/

lemma setPos_vals_nonneg {pos : List (String × ℚ)} {s : String} {v : ℚ}
    (hp : ∀ p ∈ pos, 0 ≤ p.2) (hv : 0 ≤ v) : ∀ p ∈ setPos pos s v, 0 ≤ p.2 := by
  induction pos with
  | nil =>
    intro p hp'
    rw [setPos, List.mem_singleton] at hp'
    subst hp'
    exact hv
  | cons a rest ih =>
    obtain ⟨x, y⟩ := a
    intro p hp'
    by_cases hs : x = s
    · rw [setPos, if_pos hs] at hp'
      rcases List.mem_cons.mp hp' with rfl | hmem
      · exact hv
      · exact hp p (List.mem_cons_of_mem _ hmem)
    · rw [setPos, if_neg hs] at hp'
      rcases List.mem_cons.mp hp' with rfl | hmem
      · exact hp (x, y) (List.mem_cons_self _ _)
      · exact ih (fun r hr => hp r (List.mem_cons_of_mem _ hr)) p hmem

lemma buyPhase_inv {tc : ℚ} {price : String → ℚ} {date : String} {alloc : ℚ}
    (halloc : 0 ≤ alloc) (hprice : ∀ s, 0 ≤ price s) :
    ∀ (syms : List String) (pos : List (String × ℚ)) (cash : ℚ) (trades : List Trade),
      0 ≤ cash → (∀ p ∈ pos, 0 ≤ p.2) →
      0 ≤ (buyPhase tc price date alloc syms pos cash trades).2.1 ∧
      ∀ p ∈ (buyPhase tc price date alloc syms pos cash trades).1, 0 ≤ p.2 := by
  intro syms
  induction syms with
  | nil => intro pos cash trades hc hp; exact ⟨hc, hp⟩
  | cons s rest ih =>
    intro pos cash trades hc hp
    simp only [buyPhase]
    by_cases hcost : alloc * (1 + tc) ≤ cash
    · rw [if_pos hcost]
      exact ih _ _ _ (sub_nonneg.mpr hcost)
        (setPos_vals_nonneg hp (div_nonneg halloc (hprice s)))
    · rw [if_neg hcost]
      exact ih _ _ _ hc hp

lemma stepTrade_inv {tc : ℚ} (htc0 : 0 ≤ tc) (htc1 : tc ≤ 1) {price : String → ℚ}
    (hprice : ∀ s, 0 ≤ price s) (date : String) (preds : List (String × ℚ))
    (st : PortState) (hc : 0 ≤ st.cash) (hp : ∀ p ∈ st.positions, 0 ≤ p.2) :
    0 ≤ (stepTrade tc price date preds st).cash ∧
    ∀ p ∈ (stepTrade tc price date preds st).positions, 0 ≤ p.2 := by
  by_cases hne : preds = []
  · simp only [stepTrade, if_pos hne]
    exact ⟨hc, hp⟩
  · have hsell := sellPhase_eq tc price date (buySymbols preds) st.positions st.cash st.trades
    have hcash1 :
        0 ≤ (sellPhase tc price date (buySymbols preds) st.positions st.cash st.trades).2.1 := by
      rw [hsell]
      apply add_nonneg hc
      apply List.sum_nonneg
      intro x hx
      obtain ⟨p, hpmem, rfl⟩ := List.mem_map.mp hx
      have hq : 0 < p.2 := by
        have := (List.mem_filter.mp hpmem).2
        simp only [decide_eq_true_eq] at this
        exact this.1
      have h1 : 0 ≤ p.2 * price p.1 := mul_nonneg hq.le (hprice p.1)
      have h2 : p.2 * price p.1 - p.2 * price p.1 * tc = p.2 * price p.1 * (1 - tc) := by ring
      rw [h2]
      exact mul_nonneg h1 (sub_nonneg.mpr htc1)
    have hpos1 :
        ∀ p ∈ (sellPhase tc price date (buySymbols preds) st.positions st.cash st.trades).1,
          0 ≤ p.2 := by
      rw [hsell]
      intro p hmem
      obtain ⟨p0, hp0, rfl⟩ := List.mem_map.mp hmem
      by_cases hC : 0 < p0.2 ∧ p0.1 ∉ buySymbols preds
      · rw [if_pos hC]
      · rw [if_neg hC]
        exact hp p0 hp0
    by_cases hb : buySymbols preds = []
    · simp only [stepTrade, if_neg hne, if_pos hb]
      exact ⟨hcash1, hpos1⟩
    · simp only [stepTrade, if_neg hne, if_neg hb]
      have halloc : 0 ≤ (sellPhase tc price date (buySymbols preds) st.positions st.cash
          st.trades).2.1 * (95/100) / ((buySymbols preds).length : ℚ) :=
        div_nonneg (mul_nonneg hcash1 (by norm_num)) (Nat.cast_nonneg _)
      exact buyPhase_inv halloc hprice _ _ _ _ hcash1 hpos1

lemma portfolioValue_nonneg {price : String → ℚ} (hprice : ∀ s, 0 ≤ price s)
    {st : PortState} (hc : 0 ≤ st.cash) (hp : ∀ p ∈ st.positions, 0 ≤ p.2) :
    0 ≤ portfolioValue price st := by
  apply add_nonneg hc
  apply List.sum_nonneg
  intro x hx
  obtain ⟨p, hpm, rfl⟩ := List.mem_map.mp hx
  by_cases hq : 0 < p.2
  · rw [if_pos hq]
    exact mul_nonneg hq.le (hprice p.1)
  · rw [if_neg hq]

lemma runSimGo_inv {tc : ℚ} (htc0 : 0 ≤ tc) (htc1 : tc ≤ 1) :
    ∀ (steps : List StepInput) (st : PortState) (equity : List ℚ),
      (∀ s ∈ steps, ∀ sym, 0 ≤ s.price sym) → 0 ≤ st.cash →
      (∀ p ∈ st.positions, 0 ≤ p.2) → (∀ v ∈ equity, 0 ≤ v) →
      0 ≤ (runSimGo tc steps st equity).1.cash ∧
      ∀ v ∈ (runSimGo tc steps st equity).2, 0 ≤ v := by
  intro steps
  induction steps with
  | nil => intro st equity _ hc _ he; exact ⟨hc, he⟩
  | cons s rest ih =>
    intro st equity hpr hc hp he
    simp only [runSimGo]
    have hps : ∀ sym, 0 ≤ s.price sym := hpr s (List.mem_cons_self _ _)
    obtain ⟨hc', hp'⟩ := stepTrade_inv htc0 htc1 hps s.date s.predictions st hc hp
    apply ih _ _ (fun s' hs' => hpr s' (List.mem_cons_of_mem _ hs')) hc' hp'
    intro v hv
    rcases List.mem_append.mp hv with hv' | hv'
    · exact he v hv'
    · rw [List.mem_singleton.mp hv']
      exact portfolioValue_nonneg hps hc' hp'

/-- C9 (amended: `transaction_cost` must also be at most `1`): for
every run with positive initial capital, transaction cost in `[0, 1]`
and non-negative close prices, cash stays non-negative through every
step and every portfolio value appended to the equity curve is
non-negative. -/
theorem portfolio_cash_and_equity_nonneg (tc initial_capital : ℚ) (symbols : List String)
    (steps : List StepInput) (hcap : 0 < initial_capital) (htc0 : 0 ≤ tc) (htc1 : tc ≤ 1)
    (hpr : ∀ s ∈ steps, ∀ sym, 0 ≤ s.price sym) :
    0 ≤ (runSim tc initial_capital symbols steps).1.cash ∧
    ∀ v ∈ (runSim tc initial_capital symbols steps).2, 0 ≤ v := by
  apply runSimGo_inv htc0 htc1 steps _ _ hpr hcap.le
  · intro p hp
    obtain ⟨s, _, rfl⟩ := List.mem_map.mp hp
    exact le_refl 0
  · intro v hv
    rw [List.mem_singleton.mp hv]
    exact hcap.le

/-- Witness for C9 (amended) at a concrete input. -/
theorem portfolio_cash_and_equity_nonneg_witness :
    ((0:ℚ) < 100 ∧ (0:ℚ) ≤ 1/1000 ∧ (1/1000:ℚ) ≤ 1) ∧
    0 ≤ (runSim (1/1000) 100 ["A"]
      [⟨"d", [("A", 2/100)], fun _ => 1⟩]).1.cash := by
  refine ⟨⟨by norm_num, by norm_num, by norm_num⟩, ?_⟩
  exact (portfolio_cash_and_equity_nonneg (1/1000) 100 ["A"]
    [⟨"d", [("A", 2/100)], fun _ => 1⟩] (by norm_num) (by norm_num) (by norm_num)
    (by
      intro s hs sym
      rw [List.mem_singleton] at hs
      subst hs
      exact zero_le_one)).1

/-- C9 counterexample to the claim as frozen: with
`transaction_cost = 11/10` (which satisfies the claim's `≥ 0`),
positive initial capital and unit close prices, the step-two
liquidation credits negative net proceeds: the cash after that step is
`-9/2 < 0` and `-9/2` is appended to the equity curve. -/
theorem portfolio_negative_cash_counterexample :
    (0:ℚ) < 100 ∧ (0:ℚ) ≤ 11/10 ∧
    (runSim (11/10) 100 ["A", "B"]
      [⟨"d1", [("A", 5/100), ("B", 4/100)], fun _ => 1⟩,
       ⟨"d2", [("A", 1/200)], fun _ => 1⟩]).1.cash < 0 ∧
    (-9/2 : ℚ) ∈ (runSim (11/10) 100 ["A", "B"]
      [⟨"d1", [("A", 5/100), ("B", 4/100)], fun _ => 1⟩,
       ⟨"d2", [("A", 1/200)], fun _ => 1⟩]).2 := by
  refine ⟨by norm_num, by norm_num, ?_, ?_⟩ <;>
    norm_num [runSim, runSimGo, stepTrade, sellPhase, buyPhase, buySymbols, sortPredsDesc,
      portfolioValue, setPos, List.insertionSort, List.orderedInsert, List.dedup,
      List.pwFilter, List.cons_ne_nil, predGE]

end MarketIntel
